import Mathlib

/-!
Verification development for the repository
`evanalulu/Working-with-Strings-in-C-`.

The repository has two source files:

* `src/assign5.cpp` — three string helpers (`capitalize`,
  `removeCharacters`, `addCommas`) plus a `main` driver;
* `src/wclib/util.h` — the bundled teaching library: the `Lexicon`
  word-list class with its merge iterator and letter codec, and the
  generic `Grid` 2-D container.

Everything below is a shallow embedding of those sources.  C++
`std::string` values are modelled as `List Char`; C++ `int` becomes
`Int` where negative values matter; a call to the non-returning
`error(msg)` reporter is modelled as an `Option`/sentinel outcome.
Definitions whose bodies live in a `.cpp` file that is not part of the
repository snapshot (the library's `lexicon.cpp` / `util.cpp`) are
modelled from the specification and carry a doc comment that starts
with `Modelled from the spec:`.
-/

set_option maxRecDepth 10000

namespace WCS

/-- Words (C++ `std::string` values) are modelled as lists of characters. -/
abbrev Word := List Char

/-- C++ `std::string::operator<`: lexicographic comparison, character by
character, with a proper initial segment smaller than its extensions.
Used by `Lexicon::iterator` (util.h) to compare candidate words. -/
def strLt : Word → Word → Bool
  | _, [] => false
  | [], _ :: _ => true
  | a :: as, b :: bs => if a < b then true else if b < a then false else strLt as bs

/- ------------------------------------------------------------------
   Case conversion helpers (declared in util.h; their definitions live
   in the library's missing .cpp file).
   ------------------------------------------------------------------ -/

/-- Modelled from the spec: `toLowerCase(char)` is declared in util.h but
defined in a library source file that is not under `src/`.  Spec §6:
"a case-folding utility `to_lower(char) -> char` mapping uppercase ASCII
letters to lowercase, identity otherwise". -/
def toLowerChar (c : Char) : Char :=
  if 'A' ≤ c ∧ c ≤ 'Z' then Char.ofNat (c.toNat + 32) else c

/-- Modelled from the spec: `toUpperCase(char)`, the dual of
`toLowerChar` — maps lowercase ASCII letters to uppercase, identity
otherwise (util.h declaration, definition not under `src/`). -/
def toUpperChar (c : Char) : Char :=
  if 'a' ≤ c ∧ c ≤ 'z' then Char.ofNat (c.toNat - 32) else c

/-- Modelled from the spec: `toLowerCase(string)` — all uppercase
characters converted to their lowercase equivalents (util.h declaration,
definition not under `src/`). -/
def toLowerCaseStr (s : Word) : Word := s.map toLowerChar

/- ------------------------------------------------------------------
   assign5.cpp — Problem 1: capitalize
   ------------------------------------------------------------------ -/

/-- `capitalize` (assign5.cpp lines 24-29): lowercases the whole string
and then writes `toUpperCase(s[0])` to index 0 unconditionally.  For an
empty string the write `s[0] = ...` is out of bounds, modelled as
`none`. -/
def capitalize (s : Word) : Option Word :=
  match toLowerCaseStr s with
  | [] => none
  | c :: cs => some (toUpperChar c :: cs)

/- ------------------------------------------------------------------
   assign5.cpp — Problem 2: removeCharacters
   ------------------------------------------------------------------ -/

/-- The apostrophe character (ASCII 39). -/
def apos : Char := Char.ofNat 39

/-- The fixed sentinel string returned by `removeCharacters`
(assign5.cpp line 52): `Requested string 'remove' not found.` -/
def sentinel : Word :=
  "Requested string ".toList ++ apos :: "remove".toList ++ apos :: " not found.".toList

/-- The character loop of `removeCharacters` (assign5.cpp lines 42-49):
walks `str`, appending to `res` every character that is not in the
removal set and setting `foundAny := true` whenever a character is in
it.  The accumulator is the pair (res, foundAny). -/
def removeCharsRun (remove : Word) : Word × Bool → Word → Word × Bool
  | acc, [] => acc
  | (res, foundAny), c :: cs =>
      if remove.contains c then removeCharsRun remove (res, true) cs
      else removeCharsRun remove (res ++ [c], foundAny) cs

/-- `removeCharacters` (assign5.cpp lines 32-55).  The local flag
`bool foundAny;` is declared without an initializer and is only ever
assigned in the "character found" branch; its indeterminate initial
value is made explicit as the parameter `foundAnyInit`.  After the loop
the code returns the sentinel when `!foundAny`, else `res`. -/
def removeCharacters (foundAnyInit : Bool) (str remove : Word) : Word :=
  let p := removeCharsRun remove ([], foundAnyInit) str
  if !p.2 then sentinel else p.1

/- ------------------------------------------------------------------
   assign5.cpp — Problem 3: addCommas
   ------------------------------------------------------------------ -/

/-- `std::string::insert(i, ",")`: insert a character before position
`i`. -/
def insertAt (s : Word) (i : Nat) (c : Char) : Word := s.take i ++ c :: s.drop i

/-- The loop of `addCommas` (assign5.cpp lines 60-61):
`for (int i = s.size() - 3; i > 0; i -= 3) s.insert(i, ",");`. -/
def addCommasLoop (s : Word) (i : Int) : Word :=
  if h : 0 < i then addCommasLoop (insertAt s i.toNat ',') (i - 3) else s
termination_by i.toNat
decreasing_by omega

/-- `addCommas` (assign5.cpp lines 58-63): run the insertion loop
starting from `i = s.size() - 3` (C++ `int` arithmetic, modelled on
`Int`; on the usual two's-complement targets the conversion of the
unsigned `size() - 3` to `int` yields exactly this value). -/
def addCommas (s : Word) : Word := addCommasLoop s ((s.length : Int) - 3)

/-- Remove every comma from a string (used to state the round-trip
property of `addCommas`). -/
def eraseCommas (s : Word) : Word := s.filter (fun c => c != ',')

/-- Split a string at its commas (the comma-separated groups of a
string, used to state the grouping property of `addCommas`). -/
def splitOnComma : Word → List Word
  | [] => [[]]
  | c :: cs =>
      if c = ',' then [] :: splitOnComma cs
      else
        match splitOnComma cs with
        | [] => [[c]]
        | g :: gs => (c :: g) :: gs

/- ------------------------------------------------------------------
   util.h — Lexicon letter codec (lines 584-590)
   ------------------------------------------------------------------ -/

/-- Characters are modelled by their ASCII codes for the codec of
`Lexicon`.  `tolowerCode` models the C library `tolower` on ASCII:
uppercase letters map to lowercase, everything else is unchanged. -/
def tolowerCode (c : Nat) : Nat := if 65 ≤ c ∧ c ≤ 90 then c + 32 else c

/-- A code of an ASCII letter, uppercase (65-90) or lowercase (97-122). -/
def isAsciiLetterCode (c : Nat) : Prop := (65 ≤ c ∧ c ≤ 90) ∨ (97 ≤ c ∧ c ≤ 122)

instance (c : Nat) : Decidable (isAsciiLetterCode c) := by
  unfold isAsciiLetterCode; infer_instance

/-- `Lexicon::charToOrd` (util.h lines 584-586):
`(unsigned int)(tolower(ch) - 'a' + 1)` — the `int` result is converted
to `unsigned int`, i.e. reduced modulo 2^32. -/
def charToOrd (c : Nat) : Nat :=
  (((tolowerCode c : Int) - 97 + 1) % 4294967296).toNat

/-- `Lexicon::ordToChar` (util.h lines 588-590):
`(char)(ord - 1 + 'a')` — unsigned arithmetic truncated to a byte.
For every `ord < 2^32` the C++ value `(ord - 1 + 'a') mod 2^8` equals
`(ord + 96) % 256` because `256` divides `2^32`. -/
def ordToChar (ordv : Nat) : Nat := (ordv + 96) % 256

/- ------------------------------------------------------------------
   util.h — the Grid container
   ------------------------------------------------------------------ -/

/-- The `Grid` container (util.h lines 641-1044): a row-major dynamic
2-D array.  `elements` models the backing buffer `ValueType *elements`;
`nRows` and `nCols` are C++ `int`, modelled as `Int`. -/
structure Grid (V : Type) where
  nRows : Int
  nCols : Int
  elements : List V
deriving DecidableEq

/-- A grid whose backing buffer has exactly `nRows * nCols` elements and
whose dimensions are non-negative — the state every grid built through
the constructors and `resize` is in. -/
def gridWF {V : Type} (g : Grid V) : Prop :=
  0 ≤ g.nRows ∧ 0 ≤ g.nCols ∧ g.elements.length = (g.nRows * g.nCols).toNat

instance {V : Type} (g : Grid V) : Decidable (gridWF g) := by
  unfold gridWF; infer_instance

/-- `Grid::numRows` (util.h lines 1066-1069). -/
def Grid.numRows {V : Type} (g : Grid V) : Int := g.nRows

/-- `Grid::numCols` (util.h lines 1071-1074). -/
def Grid.numCols {V : Type} (g : Grid V) : Int := g.nCols

/-- `Grid::inBounds` (util.h lines 1143-1146):
`row >= 0 && col >= 0 && row < nRows && col < nCols`. -/
def Grid.inBounds {V : Type} (g : Grid V) (row col : Int) : Bool :=
  decide (0 ≤ row) && decide (0 ≤ col) && decide (row < g.nRows) && decide (col < g.nCols)

/-- `Grid::get` (util.h lines 1148-1152): signal a fatal error (`none`)
when out of bounds, else read `elements[(row * nCols) + col]`.  The raw
buffer read is modelled with `List.get?`, so a read past the backing
buffer is also `none`. -/
def Grid.get {V : Type} (g : Grid V) (row col : Int) : Option V :=
  if g.inBounds row col then g.elements.get? (row * g.nCols + col).toNat else none

/-- `Grid::set` (util.h lines 1160-1164): signal a fatal error (`none`)
when out of bounds, else write `elements[(row * nCols) + col] = value`. -/
def Grid.set {V : Type} (g : Grid V) (row col : Int) (v : V) : Option (Grid V) :=
  if g.inBounds row col then
    some { g with elements := g.elements.set (row * g.nCols + col).toNat v }
  else none

/-- The chained subscript `grid[row][col]`: `Grid::operator[]` builds a
`GridRow(this, row)` without any check, and `GridRow::operator[]`
(util.h lines 993-999) checks `inBounds(row, col)` and returns
`elements[(row * nCols) + col]`. -/
def Grid.gridRowGet {V : Type} (g : Grid V) (row col : Int) : Option V :=
  if g.inBounds row col then g.elements.get? (row * g.nCols + col).toNat else none

/-- `Grid::deepCopy` (util.h lines 894-902): allocates a fresh buffer of
`n = nRows * nCols` elements and copies `grid.elements[i]` for
`i < n`, then copies the dimensions. -/
def Grid.deepCopy {V : Type} (g : Grid V) : Grid V :=
  { nRows := g.nRows, nCols := g.nCols,
    elements := g.elements.take (g.nRows * g.nCols).toNat }

/-- `Grid::operator=` (util.h lines 906-912): when `this != &src` the
old buffer is freed and `deepCopy(src)` runs; when the operands alias
(`aliased = true`, which forces `dst = src`) nothing happens. -/
def Grid.assign {V : Type} (aliased : Bool) (dst src : Grid V) : Grid V :=
  if aliased then dst else src.deepCopy

/-- `Grid::resize` (util.h lines 1076-1114): negative dimensions are a
fatal error (`none`); otherwise a fresh default-initialized buffer of
`nRows * nCols` elements is created and, when `retain` is set, the loop
copies `oldElements[(row * oldnRows) + col]` — exactly as written on
line 1105 — into `elements[(row * nCols) + col]` for every
`row < min(oldnRows, nRows)`, `col < min(oldnCols, nCols)`.  An
out-of-range read of the old buffer is modelled by `List.getD`'s
default. -/
def Grid.resize {V : Type} [Inhabited V] (g : Grid V) (nRows nCols : Int)
    (retain : Bool) : Option (Grid V) :=
  if nRows < 0 ∨ nCols < 0 then none
  else
    let base := List.replicate (nRows * nCols).toNat (default : V)
    let minRows := if g.nRows < nRows then g.nRows else nRows
    let minCols := if g.nCols < nCols then g.nCols else nCols
    let elems :=
      if retain then
        (List.range minRows.toNat).foldl (fun acc row =>
          (List.range minCols.toNat).foldl (fun acc2 col =>
            acc2.set (row * nCols.toNat + col)
              (g.elements.getD (row * g.nRows.toNat + col) default)) acc) base
      else base
    some { nRows := nRows, nCols := nCols, elements := elems }

/- ------------------------------------------------------------------
   util.h — the Lexicon merge iterator (lines 472-574)
   ------------------------------------------------------------------ -/

/-- State of `Lexicon::iterator` (util.h lines 472-566).  The iterator
walks the compressed DAWG store and the dynamic `std::set` store in
lockstep.  The concrete DAWG-traversal fields (`edgePtr`, `stack`,
`currentDawgPrefix`) are modelled from the spec (§4.1: the ordered
traversal "produces the lazy ... lexicographically increasing sequence
of all accepting paths") as `dawgRemaining`, the sorted list of
accepting words not yet consumed: its head `w` is the word the current
edge completes, so `currentDawgPrefix = w.dropLast`,
`ordToChar(edgePtr->letter)` is `w.getLast`, and `edgePtr == NULL`
corresponds to `dawgRemaining = []`.  `currentSetWord = []` models
`currentSetWord == ""` (set side exhausted), and `setRemaining` models
the words from `setIterator` to `setEnd`.  `lp` is the lexicon pointer
(an opaque identity) and `index` the yield counter. -/
structure LexIterator where
  lp : Nat
  index : Nat
  dawgRemaining : List Word
  currentSetWord : Word
  setRemaining : List Word
deriving DecidableEq

/-- Modelled from the spec: `Lexicon::iterator::advanceToNextWordInSet`
is declared in util.h but defined in the library's `lexicon.cpp`, which
is not under `src/`.  It loads the next dynamic-store word into
`currentSetWord` (or `""` when `setIterator == setEnd`) and advances
`setIterator`. -/
def advanceToNextWordInSet (it : LexIterator) : LexIterator :=
  match it.setRemaining with
  | [] => { it with currentSetWord := [] }
  | w :: ws => { it with currentSetWord := w, setRemaining := ws }

/-- Modelled from the spec: `Lexicon::iterator::advanceToNextWordInDawg`
is declared in util.h but defined in the library's `lexicon.cpp`, which
is not under `src/`.  Spec §4.1: the DAWG traversal steps to the next
accepting path in increasing lexicographic order, so in this model it
drops the head of the sorted remaining-word list (leaving `[]`, i.e.
`edgePtr == NULL`, when the traversal is exhausted). -/
def advanceToNextWordInDawg (it : LexIterator) : LexIterator :=
  { it with dawgRemaining := it.dawgRemaining.tail }

/-- Modelled from the spec: `Lexicon::size()` is declared in util.h but
defined in the library's `lexicon.cpp`, which is not under `src/`.
Spec §4.3: "distinct-word count across the union (compressed
accepting-path count ... plus dynamic-store count minus any words in
the dynamic store that duplicate compressed-store entries)". -/
def lexSize (dawgWords setWords : List Word) : Nat :=
  dawgWords.length + (setWords.filter (fun w => !(dawgWords.contains w))).length

/-- The `Lexicon::iterator` constructor (util.h lines 493-507) with
`endFlag = false` (this is `begin()`): `index = 0`, no current DAWG
edge yet, then `advanceToNextWordInDawg()` positions the traversal at
the first accepting word (modelled by handing over the full sorted DAWG
word list) and `advanceToNextWordInSet()` loads the first set word. -/
def beginIter (lexId : Nat) (dawgWords setWords : List Word) : LexIterator :=
  advanceToNextWordInSet
    { lp := lexId, index := 0, dawgRemaining := dawgWords,
      currentSetWord := [], setRemaining := setWords }

/-- The `Lexicon::iterator` constructor with `endFlag = true` (this is
`end()`, util.h lines 495-496): only `index = lp->size()` is set; the
traversal fields stay uninitialized (their values are irrelevant to
`operator==`, which inspects `lp` and `index` alone). -/
def endIter (lexId : Nat) (dawgWords setWords : List Word) : LexIterator :=
  { lp := lexId, index := lexSize dawgWords setWords, dawgRemaining := [],
    currentSetWord := [], setRemaining := [] }

/-- `Lexicon::iterator::operator++` (util.h lines 519-531): when
`edgePtr == NULL` advance the set side; otherwise compare
`currentSetWord == "" || currentDawgPrefix < currentSetWord` — note the
comparison uses the DAWG *prefix* (the current word minus its final
letter), not the full word — advancing the DAWG side when it holds and
the set side when it does not; finally `index++`. -/
def iterInc (it : LexIterator) : LexIterator :=
  let it' :=
    match it.dawgRemaining with
    | [] => advanceToNextWordInSet it
    | w :: _ =>
        if it.currentSetWord.isEmpty || strLt w.dropLast it.currentSetWord then
          advanceToNextWordInDawg it
        else
          advanceToNextWordInSet it
  { it' with index := it'.index + 1 }

/-- `Lexicon::iterator::operator*` (util.h lines 547-554): when
`edgePtr == NULL` yield `currentSetWord`; otherwise yield
`currentDawgPrefix + ordToChar(edgePtr->letter)` (the full DAWG word)
when `currentSetWord == "" || currentDawgPrefix < currentSetWord`, else
`currentSetWord`. -/
def iterDeref (it : LexIterator) : Word :=
  match it.dawgRemaining with
  | [] => it.currentSetWord
  | w :: _ =>
      if it.currentSetWord.isEmpty || strLt w.dropLast it.currentSetWord then w
      else it.currentSetWord

/-- `Lexicon::iterator::operator==` (util.h lines 539-541):
`lp == rhs.lp && index == rhs.index`. -/
def iterEq (a b : LexIterator) : Bool :=
  a.lp == b.lp && a.index == b.index

/-- Drive the iterator from `it` until it compares equal to `e`,
collecting `*it` before each `++it` (the range-based `for` loop over a
lexicon).  `fuel` bounds the number of steps so the walk is total. -/
def collectToEnd : Nat → LexIterator → LexIterator → List Word
  | 0, _, _ => []
  | fuel + 1, it, e =>
      if iterEq it e then [] else iterDeref it :: collectToEnd fuel (iterInc it) e

/-- A full iteration pass over a lexicon whose compressed store accepts
exactly `dawgWords` (sorted) and whose dynamic store holds `setWords`
(sorted): walk from `begin()` to `end()`. -/
def fullIteration (dawgWords setWords : List Word) : List Word :=
  collectToEnd (lexSize dawgWords setWords + 1) (beginIter 0 dawgWords setWords)
    (endIter 0 dawgWords setWords)

/- ==================================================================
   Theorems
   ================================================================== -/

/-- Claim C10: for every non-empty string, `capitalize` returns the
lowercased string with its first character replaced by its uppercase
equivalent and all remaining characters lowercase; the unconditional
write to index 0 makes the empty string an unhandled (out-of-bounds)
input, modelled as `none`. -/
theorem C10_capitalize_shape (c : Char) (cs : List Char) :
    capitalize (c :: cs) = some (toUpperChar (toLowerChar c) :: toLowerCaseStr cs)
    ∧ capitalize ([] : Word) = none := by
  constructor
  · simp [capitalize, toLowerCaseStr]
  · rfl

/-- Claim C7: the letter codec is a case-insensitive bijection between
ASCII letters and 1..26: `charToOrd` maps every letter into 1..26,
`ordToChar (charToOrd c)` is the lowercase of `c`, and `charToOrd` is a
left inverse of `ordToChar` on 1..26. -/
theorem C7_letter_codec (c : Nat) (h : isAsciiLetterCode c) :
    (1 ≤ charToOrd c ∧ charToOrd c ≤ 26)
    ∧ ordToChar (charToOrd c) = tolowerCode c
    ∧ (∀ ordv : Nat, 1 ≤ ordv → ordv ≤ 26 → charToOrd (ordToChar ordv) = ordv) := by
  have hlow : 97 ≤ tolowerCode c ∧ tolowerCode c ≤ 122 := by
    unfold isAsciiLetterCode at h
    unfold tolowerCode
    rcases h with h | h
    · rw [if_pos h]; omega
    · rw [if_neg (by omega)]; omega
  have h1 : charToOrd c = tolowerCode c - 96 := by
    unfold charToOrd
    omega
  refine ⟨by omega, ?_, ?_⟩
  · unfold ordToChar
    omega
  · intro ordv ho1 ho2
    have h2 : ordToChar ordv = ordv + 96 := by unfold ordToChar; omega
    rw [h2]
    unfold charToOrd tolowerCode
    rw [if_neg (by omega)]
    omega

/-- Witness for C7 at the concrete letter `A` (code 65) and ordinal 13. -/
theorem C7_letter_codec_witness :
    isAsciiLetterCode 65
    ∧ (1 ≤ charToOrd 65 ∧ charToOrd 65 ≤ 26)
    ∧ ordToChar (charToOrd 65) = tolowerCode 65
    ∧ charToOrd (ordToChar 13) = 13 :=
  ⟨by decide, (C7_letter_codec 65 (by decide)).1, (C7_letter_codec 65 (by decide)).2.1,
   (C7_letter_codec 65 (by decide)).2.2 13 (by decide) (by decide)⟩

/-- The loop of `removeCharacters` computes the kept subsequence and
or-accumulates the `foundAny` flag over the characters it removes. -/
theorem removeCharsRun_eq (remove : Word) :
    ∀ (str res : Word) (fa : Bool),
      removeCharsRun remove (res, fa) str
        = (res ++ str.filter (fun c => !(remove.contains c)),
           fa || str.any (fun c => remove.contains c)) := by
  intro str
  induction str with
  | nil => intro res fa; simp [removeCharsRun]
  | cons c cs ih =>
      intro res fa
      by_cases h : c ∈ remove
      · simp [removeCharsRun, h, ih, List.filter_cons, List.any_cons]
      · simp [removeCharsRun, h, ih, List.filter_cons, List.any_cons]

/-- Claim C4: with the indeterminate initial value of the uninitialized
flag made explicit as `foundAnyInit`, the flag read by the sentinel
branch equals `foundAnyInit || (some character of remove occurs in str)`
— so it still holds its unassigned initial value exactly when no
character of `remove` occurs in `str` — and the function returns the
sentinel exactly when that possibly-uninitialized read yields `false`,
else the filtered string.  Whether the sentinel outcome is a function of
`(str, remove)` alone is therefore decided by the initialization of
`foundAny`. -/
theorem C4_remove_characters_sentinel_flag (foundAnyInit : Bool) (str remove : Word) :
    (removeCharsRun remove ([], foundAnyInit) str).2
        = (foundAnyInit || str.any (fun c => remove.contains c))
    ∧ removeCharacters foundAnyInit str remove
        = (if foundAnyInit || str.any (fun c => remove.contains c)
           then str.filter (fun c => !(remove.contains c)) else sentinel) := by
  have h := removeCharsRun_eq remove str [] foundAnyInit
  constructor
  · rw [h]
  · unfold removeCharacters
    simp only [h]
    cases hb : (foundAnyInit || str.any fun c => List.contains remove c)
    · simp
    · simp

/-- Counterexample to claim C5 as stated: on input
`str = sentinel-text ++ "z"`, `remove = "z"` a character of `remove`
does occur in `str`, yet the returned (correctly filtered) string is
exactly the sentinel string. -/
theorem C5_sentinel_collision :
    ((sentinel ++ ['z']).any (fun c => List.contains ['z'] c) = true)
    ∧ removeCharacters false (sentinel ++ ['z']) ['z'] = sentinel := by
  constructor <;> decide

/-- Claim C5 (amended): whenever at least one character of `remove`
occurs in `str`, `removeCharacters` returns the subsequence of `str` of
exactly the characters that do not occur in `remove`, in their original
order, for every initial value of the uninitialized flag — the sentinel
branch is not taken (though the returned subsequence may coincidentally
equal the sentinel text). -/
theorem C5_remove_characters_subsequence (foundAnyInit : Bool) (str remove : Word)
    (h : str.any (fun c => remove.contains c) = true) :
    removeCharacters foundAnyInit str remove
      = str.filter (fun c => !(remove.contains c)) := by
  unfold removeCharacters
  simp only [removeCharsRun_eq]
  rw [h]
  simp

/-- Witness for C5 at the driver's own test input
`removeCharacters("hello", "llo")`, which returns `"he"`. -/
theorem C5_remove_characters_subsequence_witness :
    ("hello".toList.any (fun c => "llo".toList.contains c) = true)
    ∧ removeCharacters false "hello".toList "llo".toList
        = "hello".toList.filter (fun c => !("llo".toList.contains c)) :=
  ⟨by decide, C5_remove_characters_subsequence false "hello".toList "llo".toList (by decide)⟩

/-- Claim C1 is violated by the code: the merge in
`operator*`/`operator++` compares `currentDawgPrefix` (the DAWG word
minus its final letter) with the set word, so
(i) with DAWG words {cau} and dynamic word {cat} the pass yields
`cau, cat` — not strictly increasing;
(ii) on the spec's own §8 example, DAWG {car, cart, cat} plus added
word {care}, the pass yields `car, cart, cat, care` instead of
`car, care, cart, cat`;
(iii) with the word `cat` in both stores and `dog` in the dynamic
store, the pass yields `cat, cat` — a duplicate is surfaced (there is
no "advance both" branch) and `dog` is never yielded. -/
theorem C1_iteration_merge_bug :
    fullIteration [['c', 'a', 'u']] [['c', 'a', 't']]
        = [['c', 'a', 'u'], ['c', 'a', 't']]
    ∧ strLt ['c', 'a', 'u'] ['c', 'a', 't'] = false
    ∧ fullIteration [['c', 'a', 'r'], ['c', 'a', 'r', 't'], ['c', 'a', 't']]
          [['c', 'a', 'r', 'e']]
        = [['c', 'a', 'r'], ['c', 'a', 'r', 't'], ['c', 'a', 't'], ['c', 'a', 'r', 'e']]
    ∧ strLt ['c', 'a', 't'] ['c', 'a', 'r', 'e'] = false
    ∧ fullIteration [['c', 'a', 't']] [['c', 'a', 't'], ['d', 'o', 'g']]
        = [['c', 'a', 't'], ['c', 'a', 't']] := by
  refine ⟨?_, ?_, ?_, ?_, ?_⟩ <;> decide

/-- `advanceToNextWordInSet` does not touch the yield counter. -/
theorem advanceToNextWordInSet_index (it : LexIterator) :
    (advanceToNextWordInSet it).index = it.index := by
  unfold advanceToNextWordInSet
  cases it.setRemaining <;> rfl

/-- `advanceToNextWordInSet` does not touch the lexicon pointer. -/
theorem advanceToNextWordInSet_lp (it : LexIterator) :
    (advanceToNextWordInSet it).lp = it.lp := by
  unfold advanceToNextWordInSet
  cases it.setRemaining <;> rfl

/-- `operator++` advances the index by exactly one. -/
theorem iterInc_index (it : LexIterator) : (iterInc it).index = it.index + 1 := by
  unfold iterInc
  cases hd : it.dawgRemaining with
  | nil =>
      dsimp only
      rw [advanceToNextWordInSet_index]
  | cons w ws =>
      dsimp only
      split
      · simp [advanceToNextWordInDawg]
      · rw [advanceToNextWordInSet_index]

/-- `operator++` does not change which lexicon is being iterated. -/
theorem iterInc_lp (it : LexIterator) : (iterInc it).lp = it.lp := by
  unfold iterInc
  cases hd : it.dawgRemaining with
  | nil =>
      dsimp only
      rw [advanceToNextWordInSet_lp]
  | cons w ws =>
      dsimp only
      split
      · simp [advanceToNextWordInDawg]
      · rw [advanceToNextWordInSet_lp]

/-- Driving an iterator whose index is `i` to an end iterator (same
lexicon pointer) whose index is `e ≥ i` yields exactly `e - i` words,
provided the fuel covers the distance. -/
theorem collectToEnd_length :
    ∀ (fuel : Nat) (it e : LexIterator), it.lp = e.lp → it.index ≤ e.index →
      e.index - it.index ≤ fuel →
      (collectToEnd fuel it e).length = e.index - it.index := by
  intro fuel
  induction fuel with
  | zero =>
      intro it e h1 h2 h3
      simp only [collectToEnd, List.length_nil]
      omega
  | succ n ih =>
      intro it e h1 h2 h3
      by_cases heq : it.index = e.index
      · have hq : iterEq it e = true := by simp [iterEq, h1, heq]
        simp [collectToEnd, hq]
        omega
      · have hq : iterEq it e = false := by simp [iterEq, heq]
        simp only [collectToEnd, hq, Bool.false_eq_true, if_false, List.length_cons]
        have hrec := ih (iterInc it) e (by rw [iterInc_lp]; exact h1)
          (by rw [iterInc_index]; omega) (by rw [iterInc_index]; omega)
        rw [hrec, iterInc_index]
        omega

/-- `begin()` starts the yield counter at 0. -/
theorem beginIter_index (lexId : Nat) (dawgWords setWords : List Word) :
    (beginIter lexId dawgWords setWords).index = 0 := by
  unfold beginIter
  rw [advanceToNextWordInSet_index]

/-- `begin()` records the lexicon it iterates. -/
theorem beginIter_lp (lexId : Nat) (dawgWords setWords : List Word) :
    (beginIter lexId dawgWords setWords).lp = lexId := by
  unfold beginIter
  rw [advanceToNextWordInSet_lp]

/-- Claim C2: a full pass from `begin()` to `end()` yields exactly
`size()` words: each `operator++` advances the index by exactly one,
the end iterator's index is `size()`, and iterator equality holds
exactly when the lexicon pointer and the index both agree, so `begin()`
(index 0) reaches `end()` after exactly `size()` yields; `size()`
itself counts the union without double-counting words present in both
stores. -/
theorem C2_iteration_count_eq_size (dawgWords setWords : List Word) :
    (fullIteration dawgWords setWords).length = lexSize dawgWords setWords
    ∧ (∀ it : LexIterator, (iterInc it).index = it.index + 1)
    ∧ (endIter 0 dawgWords setWords).index = lexSize dawgWords setWords
    ∧ (∀ a b : LexIterator, iterEq a b = true ↔ (a.lp = b.lp ∧ a.index = b.index)) := by
  refine ⟨?_, iterInc_index, rfl, ?_⟩
  · unfold fullIteration
    have h := collectToEnd_length (lexSize dawgWords setWords + 1)
      (beginIter 0 dawgWords setWords) (endIter 0 dawgWords setWords)
      (by rw [beginIter_lp]; rfl)
      (by rw [beginIter_index]; exact Nat.zero_le _)
      (by rw [beginIter_index]; exact Nat.le_succ _)
    rw [h, beginIter_index]
    simp [endIter]
  · intro a b
    simp [iterEq]

/-- `Grid::inBounds` unfolded to its four comparisons. -/
theorem Grid.inBounds_iff {V : Type} (g : Grid V) (row col : Int) :
    g.inBounds row col = true ↔ (0 ≤ row ∧ 0 ≤ col ∧ row < g.nRows ∧ col < g.nCols) := by
  simp [Grid.inBounds, and_assoc]

/-- On a well-formed grid an in-bounds position's row-major index is a
valid index into the backing buffer. -/
theorem grid_index_lt {V : Type} (g : Grid V) (hwf : gridWF g) {row col : Int}
    (h : g.inBounds row col = true) :
    (row * g.nCols + col).toNat < g.elements.length := by
  obtain ⟨hr, hc, hlen⟩ := hwf
  rw [Grid.inBounds_iff] at h
  obtain ⟨h1, h2, h3, h4⟩ := h
  have step : (row + 1) * g.nCols ≤ g.nRows * g.nCols :=
    mul_le_mul_of_nonneg_right (by omega) hc
  have expand : (row + 1) * g.nCols = row * g.nCols + g.nCols := by ring
  have hkey : row * g.nCols + col < g.nRows * g.nCols := by
    rw [expand] at step
    linarith
  have hnn : 0 ≤ row * g.nCols + col := by
    have := mul_nonneg h1 hc
    linarith
  rw [hlen]
  generalize hA : row * g.nCols + col = a at hkey hnn
  generalize hB : g.nRows * g.nCols = b at hkey
  omega

/-- Row-major indexing is injective on in-bounds column values: two
positions with columns inside `[0, nCols)` and the same index
`r * nCols + c` are the same position. -/
theorem rowMajor_index_inj {nCols row col r c : Int}
    (h1 : 0 ≤ col) (h2 : col < nCols) (h3 : 0 ≤ c) (h4 : c < nCols)
    (heq : r * nCols + c = row * nCols + col) : r = row ∧ c = col := by
  have hd : (r - row) * nCols = col - c := by
    have expand : (r - row) * nCols = r * nCols - row * nCols := by ring
    rw [expand]
    linarith
  have hrow : r = row := by
    by_contra hne
    rcases lt_or_gt_of_ne hne with hlt | hgt
    · have hle : r - row ≤ -1 := by omega
      have hm := mul_le_mul_of_nonneg_right hle (by linarith : (0:Int) ≤ nCols)
      rw [neg_one_mul, hd] at hm
      linarith
    · have hle : 1 ≤ r - row := by omega
      have hm := mul_le_mul_of_nonneg_right hle (by linarith : (0:Int) ≤ nCols)
      rw [one_mul, hd] at hm
      linarith
  refine ⟨hrow, ?_⟩
  rw [hrow] at hd
  have : (0:Int) = col - c := by
    rw [← hd]
    ring
  omega

/-- Claim C3: on a well-formed grid, `get`, `set` and the chained
subscript `grid[row][col]` signal a fatal error exactly when the
position is out of bounds; `inBounds` holds exactly when
`0 ≤ row < numRows` and `0 ≤ col < numCols`; and an in-bounds access
reads or writes the backing buffer at row-major index
`row * nCols + col`. -/
theorem C3_grid_access_bounds {V : Type} (g : Grid V) (hwf : gridWF g)
    (row col : Int) (v : V) :
    (g.inBounds row col = true ↔ (0 ≤ row ∧ 0 ≤ col ∧ row < g.numRows ∧ col < g.numCols))
    ∧ ((g.get row col).isSome = g.inBounds row col)
    ∧ ((g.set row col v).isSome = g.inBounds row col)
    ∧ g.gridRowGet row col = g.get row col
    ∧ (g.inBounds row col = true →
        g.get row col = g.elements.get? (row * g.nCols + col).toNat
        ∧ g.set row col v
            = some { g with elements := g.elements.set (row * g.nCols + col).toNat v }) := by
  refine ⟨Grid.inBounds_iff g row col, ?_, ?_, rfl, ?_⟩
  · by_cases hb : g.inBounds row col = true
    · rw [hb]
      unfold Grid.get
      rw [if_pos hb, List.get?_eq_get (grid_index_lt g hwf hb)]
      rfl
    · have hb' : g.inBounds row col = false := by
        cases hq : g.inBounds row col
        · rfl
        · exact absurd hq hb
      rw [hb']
      unfold Grid.get
      rw [if_neg hb]
      rfl
  · by_cases hb : g.inBounds row col = true
    · rw [hb]
      unfold Grid.set
      rw [if_pos hb]
      rfl
    · have hb' : g.inBounds row col = false := by
        cases hq : g.inBounds row col
        · rfl
        · exact absurd hq hb
      rw [hb']
      unfold Grid.set
      rw [if_neg hb]
      rfl
  · intro hb
    unfold Grid.get Grid.set
    rw [if_pos hb, if_pos hb]
    exact ⟨rfl, rfl⟩

/-- Witness for C3 on the concrete well-formed 1×1 grid `[0]` at
position (0, 0) with value 5. -/
theorem C3_grid_access_bounds_witness :
    gridWF (Grid.mk 1 1 [0] : Grid Nat)
    ∧ (((Grid.mk 1 1 [0] : Grid Nat).get 0 0).isSome
        = (Grid.mk 1 1 [0] : Grid Nat).inBounds 0 0) :=
  ⟨by decide, (C3_grid_access_bounds (Grid.mk 1 1 [0]) (by decide) 0 0 5).2.1⟩

/-- `Grid.get` after replacing the backing buffer, written so the
record-update projections are reduced. -/
theorem Grid.get_mk_set {V : Type} (g : Grid V) (idx : Nat) (v : V) (row col : Int) :
    ({ g with elements := g.elements.set idx v } : Grid V).get row col
      = if g.inBounds row col then (g.elements.set idx v).get? (row * g.nCols + col).toNat
        else none := rfl

/-- Claim C6: copy construction / assignment produce a deep copy with
the same dimensions and elements; if the operands alias, assignment is
a no-op (self-assignment leaves the grid unchanged); and a `set` on the
copy changes exactly the targeted cell of the copy while every
observation of the original grid is unchanged. -/
theorem C6_grid_deep_copy {V : Type} (g : Grid V) (hwf : gridWF g) :
    g.deepCopy = g
    ∧ Grid.assign true g g = g
    ∧ (∀ (row col : Int) (v : V) (g' : Grid V), g.deepCopy.set row col v = some g' →
        g'.numRows = g.numRows ∧ g'.numCols = g.numCols
        ∧ g'.get row col = some v
        ∧ (∀ r c : Int, ¬(r = row ∧ c = col) → g'.get r c = g.get r c)) := by
  have hdc : g.deepCopy = g := by
    obtain ⟨hr, hc, hlen⟩ := hwf
    unfold Grid.deepCopy
    rw [← hlen, List.take_length]
  refine ⟨hdc, rfl, ?_⟩
  rw [hdc]
  intro row col v g' hset
  unfold Grid.set at hset
  by_cases hb : g.inBounds row col = true
  · rw [if_pos hb] at hset
    have hg' : g' = { g with elements := g.elements.set (row * g.nCols + col).toNat v } :=
      (Option.some.inj hset).symm
    subst hg'
    have hb1 := (Grid.inBounds_iff g row col).mp hb
    refine ⟨rfl, rfl, ?_, ?_⟩
    · rw [Grid.get_mk_set, if_pos hb]
      exact List.get?_set_eq_of_lt v (grid_index_lt g hwf hb)
    · intro r c hne
      rw [Grid.get_mk_set]
      unfold Grid.get
      by_cases hbc : g.inBounds r c = true
      · rw [if_pos hbc, if_pos hbc]
        apply List.get?_set_ne
        intro habs
        have hb2 := (Grid.inBounds_iff g r c).mp hbc
        have hnn1 : 0 ≤ row * g.nCols + col := by
          have := mul_nonneg hb1.1 hwf.2.1
          linarith [hb1.2.1]
        have hnn2 : 0 ≤ r * g.nCols + c := by
          have := mul_nonneg hb2.1 hwf.2.1
          linarith [hb2.2.1]
        have hint : row * g.nCols + col = r * g.nCols + c := by
          rw [← Int.toNat_of_nonneg hnn1, ← Int.toNat_of_nonneg hnn2, habs]
        have hrc := rowMajor_index_inj hb1.2.1 hb1.2.2.2 hb2.2.1 hb2.2.2.2 hint.symm
        exact hne hrc
      · rw [if_neg hbc, if_neg hbc]
  · rw [if_neg hb] at hset
    exact absurd hset (by simp)

/-- Witness for C6 on the concrete well-formed 1×2 grid `[10, 20]`. -/
theorem C6_grid_deep_copy_witness :
    gridWF (Grid.mk 1 2 [10, 20] : Grid Nat)
    ∧ (Grid.mk 1 2 [10, 20] : Grid Nat).deepCopy = Grid.mk 1 2 [10, 20] :=
  ⟨by decide, (C6_grid_deep_copy (Grid.mk 1 2 [10, 20]) (by decide)).1⟩

/-- Claim C8 is violated by the code: retaining `resize` copies the old
cell at `oldElements[(row * oldnRows) + col]` (util.h line 1105) where
the row-major layout requires `row * oldnCols`.  On the 2×3 grid
`[0, 1, 2, 3, 4, 5]`, `resize(2, 3, true)` must keep every cell, yet
cell (1, 0) — old value `elements[1*3+0] = 3` — receives
`oldElements[1*2+0] = 2`. -/
theorem C8_resize_retain_bug :
    Grid.resize (Grid.mk 2 3 [0, 1, 2, 3, 4, 5] : Grid Nat) 2 3 true
      = some (Grid.mk 2 3 [0, 1, 2, 2, 3, 4])
    ∧ Grid.get (Grid.mk 2 3 [0, 1, 2, 3, 4, 5] : Grid Nat) 1 0 = some 3
    ∧ Grid.get (Grid.mk 2 3 [0, 1, 2, 2, 3, 4] : Grid Nat) 1 0 = some 2 := by
  refine ⟨?_, ?_, ?_⟩ <;> decide

/-- The `addCommas` loop exits when its counter is not positive. -/
theorem addCommasLoop_stop (s : Word) {i : Int} (h : ¬ 0 < i) :
    addCommasLoop s i = s := by
  rw [addCommasLoop.eq_def]
  exact dif_neg h

/-- One iteration of the `addCommas` loop when its counter is positive. -/
theorem addCommasLoop_go (s : Word) {i : Int} (h : 0 < i) :
    addCommasLoop s i = addCommasLoop (insertAt s i.toNat ',') (i - 3) := by
  rw [addCommasLoop.eq_def]
  exact dif_pos h

/-- Strings of length at most 3 are returned unchanged by `addCommas`:
the loop starts at `i = size - 3 ≤ 0` and exits immediately. -/
theorem addCommas_short (s : Word) (h : s.length ≤ 3) : addCommas s = s := by
  unfold addCommas
  exact addCommasLoop_stop s (by omega)

/-- Inserting one character always grows the length by one. -/
theorem insertAt_length (s : Word) (i : Nat) (c : Char) :
    (insertAt s i c).length = s.length + 1 := by
  simp [insertAt]
  omega

/-- Inserting at a position inside the left part of a concatenation
leaves the right part untouched. -/
theorem insertAt_append (A B : Word) (i : Nat) (c : Char) (h : i ≤ A.length) :
    insertAt (A ++ B) i c = insertAt A i c ++ B := by
  unfold insertAt
  rw [List.take_append_of_le_length h, List.drop_append_of_le_length h]
  simp

/-- The `addCommas` loop never disturbs a suffix that lies beyond every
insertion position: running it on `A ++ B` with `i ≤ |A|` equals
running it on `A` and appending `B`. -/
theorem addCommasLoop_append :
    ∀ (k : Nat) (i : Int) (A B : Word), i.toNat ≤ k → i ≤ (A.length : Int) →
      addCommasLoop (A ++ B) i = addCommasLoop A i ++ B := by
  intro k
  induction k with
  | zero =>
      intro i A B hk hi
      have hni : ¬ 0 < i := by omega
      rw [addCommasLoop_stop (A ++ B) hni, addCommasLoop_stop A hni]
  | succ k ih =>
      intro i A B hk hi
      by_cases hpos : 0 < i
      · rw [addCommasLoop_go (A ++ B) hpos, addCommasLoop_go A hpos,
          insertAt_append A B i.toNat ',' (by omega)]
        exact ih (i - 3) (insertAt A i.toNat ',') B (by omega)
          (by rw [insertAt_length]; omega)
      · rw [addCommasLoop_stop (A ++ B) hpos, addCommasLoop_stop A hpos]

/-- Unfolding one round of `addCommas` on a string longer than 3: the
first insertion splits off the final three characters, and the rest of
the loop is exactly `addCommas` of the remaining head. -/
theorem addCommas_step (s : Word) (h : 3 < s.length) :
    addCommas s
      = addCommas (s.take (s.length - 3)) ++ ',' :: s.drop (s.length - 3) := by
  have hA : (s.take (s.length - 3)).length = s.length - 3 := by
    simp
  unfold addCommas
  have hpos : (0:Int) < (s.length : Int) - 3 := by omega
  rw [addCommasLoop_go s hpos]
  have htn : ((s.length : Int) - 3).toNat = s.length - 3 := by omega
  rw [htn]
  have hins : insertAt s (s.length - 3) ','
      = s.take (s.length - 3) ++ ',' :: s.drop (s.length - 3) := rfl
  rw [hins]
  rw [addCommasLoop_append ((s.length : Int) - 3 - 3).toNat ((s.length : Int) - 3 - 3)
    (s.take (s.length - 3)) (',' :: s.drop (s.length - 3)) le_rfl
    (by rw [hA]; omega)]
  have hlen : ((s.take (s.length - 3)).length : Int) - 3 = (s.length : Int) - 3 - 3 := by
    rw [hA]
    omega
  rw [hlen]

/-- Erasing commas from a comma-free string changes nothing. -/
theorem eraseCommas_no_comma (l : Word) (h : ',' ∉ l) : eraseCommas l = l := by
  unfold eraseCommas
  refine List.filter_eq_self.mpr ?_
  intro a ha
  have hne : a ≠ ',' := fun he => h (he ▸ ha)
  simp [hne]

/-- Erasing commas distributes over concatenation. -/
theorem eraseCommas_append (x y : Word) :
    eraseCommas (x ++ y) = eraseCommas x ++ eraseCommas y := by
  unfold eraseCommas
  exact List.filter_append x y

/-- A leading comma disappears under `eraseCommas`. -/
theorem eraseCommas_cons_comma (y : Word) : eraseCommas (',' :: y) = eraseCommas y := by
  simp [eraseCommas, List.filter_cons]

/-- `splitOnComma` on a string that starts with a comma: an empty
leading group. -/
theorem splitOnComma_cons_comma (cs : Word) :
    splitOnComma (',' :: cs) = [] :: splitOnComma cs := by
  rw [splitOnComma.eq_def]
  dsimp only
  rw [if_pos rfl]

/-- `splitOnComma` on a string that starts with a non-comma character:
the character joins the first group. -/
theorem splitOnComma_cons_ne (c : Char) (cs : Word) (h : ¬ c = ',')
    (g : Word) (gs : List Word) (hs : splitOnComma cs = g :: gs) :
    splitOnComma (c :: cs) = (c :: g) :: gs := by
  rw [splitOnComma.eq_def]
  dsimp only
  rw [if_neg h, hs]

/-- `splitOnComma` always produces at least one group. -/
theorem splitOnComma_ne_nil : ∀ (l : Word), splitOnComma l ≠ [] := by
  intro l
  induction l with
  | nil => simp [splitOnComma]
  | cons c cs ih =>
      by_cases h : c = ','
      · subst h
        rw [splitOnComma_cons_comma]
        simp
      · cases hs : splitOnComma cs with
        | nil => exact absurd hs ih
        | cons g gs =>
            rw [splitOnComma_cons_ne c cs h g gs hs]
            simp

/-- A comma-free string is a single group. -/
theorem splitOnComma_no_comma : ∀ (l : Word), ',' ∉ l → splitOnComma l = [l] := by
  intro l
  induction l with
  | nil => intro _; rfl
  | cons c cs ih =>
      intro h
      rw [List.mem_cons, not_or] at h
      obtain ⟨h1, h2⟩ := h
      exact splitOnComma_cons_ne c cs (fun he => h1 he.symm) cs [] (ih h2)

/-- Splitting at a comma separator concatenates the group lists. -/
theorem splitOnComma_append : ∀ (x y : Word),
    splitOnComma (x ++ ',' :: y) = splitOnComma x ++ splitOnComma y := by
  intro x y
  induction x with
  | nil =>
      rw [List.nil_append, splitOnComma_cons_comma]
      rfl
  | cons c cs ih =>
      rw [List.cons_append]
      by_cases h : c = ','
      · subst h
        rw [splitOnComma_cons_comma, splitOnComma_cons_comma, ih]
        rfl
      · cases hs : splitOnComma cs with
        | nil => exact absurd hs (splitOnComma_ne_nil cs)
        | cons g gs =>
            have hs2 : splitOnComma (cs ++ ',' :: y) = g :: (gs ++ splitOnComma y) := by
              rw [ih, hs]
              rfl
            rw [splitOnComma_cons_ne c _ h g (gs ++ splitOnComma y) hs2,
              splitOnComma_cons_ne c cs h g gs hs]
            rfl

/-- Flattening the comma groups of a string recovers the string with
its commas erased. -/
theorem flatten_splitOnComma : ∀ (l : Word),
    (splitOnComma l).flatten = eraseCommas l := by
  intro l
  induction l with
  | nil => rfl
  | cons c cs ih =>
      by_cases h : c = ','
      · subst h
        rw [splitOnComma_cons_comma, eraseCommas_cons_comma]
        simpa using ih
      · cases hs : splitOnComma cs with
        | nil => exact absurd hs (splitOnComma_ne_nil cs)
        | cons g gs =>
            rw [splitOnComma_cons_ne c cs h g gs hs]
            rw [hs] at ih
            have hf : eraseCommas (c :: cs) = c :: eraseCommas cs := by
              simp [eraseCommas, List.filter_cons, h]
            rw [hf]
            simpa using ih

/-- Main induction for the grouping behaviour of `addCommas` on
comma-free strings, by strong induction on the length via an explicit
bound `n`. -/
theorem addCommas_grouping_aux :
    ∀ (n : Nat) (s : Word), s.length ≤ n → ',' ∉ s →
      eraseCommas (addCommas s) = s
      ∧ (∀ g ∈ (splitOnComma (addCommas s)).tail, g.length = 3)
      ∧ (s ≠ [] → 1 ≤ ((splitOnComma (addCommas s)).headD []).length
          ∧ ((splitOnComma (addCommas s)).headD []).length ≤ 3)
      ∧ (addCommas s).head? ≠ some ',' := by
  intro n
  induction n with
  | zero =>
      intro s hlen hnc
      have hs : s = [] := by
        cases s
        · rfl
        · simp at hlen
      subst hs
      rw [addCommas_short [] (by simp)]
      refine ⟨rfl, ?_, ?_, ?_⟩
      · intro g hg
        simp [splitOnComma] at hg
      · intro hne
        exact absurd rfl hne
      · simp
  | succ n ih =>
      intro s hlen hnc
      by_cases h3 : s.length ≤ 3
      · have heq := addCommas_short s h3
        rw [heq, splitOnComma_no_comma s hnc]
        refine ⟨eraseCommas_no_comma s hnc, ?_, ?_, ?_⟩
        · intro g hg
          simp at hg
        · intro hne
          have hpos : 0 < s.length := List.length_pos.mpr hne
          constructor
          · simpa using hpos
          · simpa using h3
        · cases s with
          | nil => simp
          | cons c cs =>
              have hc : c ≠ ',' := by
                intro he
                exact hnc (by rw [he]; exact List.mem_cons_self _ _)
              simp [hc]
      · have hlen3 : 3 < s.length := by omega
        have hA : (s.take (s.length - 3)).length = s.length - 3 := by
          simp
        have hB : (s.drop (s.length - 3)).length = 3 := by
          simp
          omega
        have hAnc : ',' ∉ s.take (s.length - 3) :=
          fun hm => hnc (List.take_subset _ _ hm)
        have hBnc : ',' ∉ s.drop (s.length - 3) :=
          fun hm => hnc (List.drop_subset _ _ hm)
        have hAne : s.take (s.length - 3) ≠ [] := by
          intro h0
          rw [h0] at hA
          simp at hA
          omega
        obtain ⟨ih1, ih2, ih3, ih4⟩ := ih (s.take (s.length - 3)) (by omega) hAnc
        have hstep := addCommas_step s hlen3
        have hACne : addCommas (s.take (s.length - 3)) ≠ [] := by
          intro h0
          rw [h0] at ih1
          have hE : eraseCommas [] = ([] : Word) := rfl
          rw [hE] at ih1
          exact hAne ih1.symm
        have hsplit : splitOnComma (addCommas s)
            = splitOnComma (addCommas (s.take (s.length - 3)))
                ++ [s.drop (s.length - 3)] := by
          rw [hstep, splitOnComma_append, splitOnComma_no_comma _ hBnc]
        refine ⟨?_, ?_, ?_, ?_⟩
        · rw [hstep, eraseCommas_append, eraseCommas_cons_comma, ih1,
            eraseCommas_no_comma _ hBnc, List.take_append_drop]
        · intro g hg
          rw [hsplit] at hg
          cases hsc : splitOnComma (addCommas (s.take (s.length - 3))) with
          | nil => exact absurd hsc (splitOnComma_ne_nil _)
          | cons g0 gs0 =>
              rw [hsc] at hg
              simp at hg
              rcases hg with hg | hg
              · refine ih2 g ?_
                rw [hsc]
                simpa using hg
              · rw [hg]
                exact hB
        · intro hne
          rw [hsplit]
          cases hsc : splitOnComma (addCommas (s.take (s.length - 3))) with
          | nil => exact absurd hsc (splitOnComma_ne_nil _)
          | cons g0 gs0 =>
              have hh := ih3 hAne
              rw [hsc] at hh
              simpa using hh
        · rw [hstep]
          cases hac : addCommas (s.take (s.length - 3)) with
          | nil => exact absurd hac hACne
          | cons a as =>
              rw [hac] at ih4
              simpa using ih4

/-- Counterexample to claim C9 as stated: for the one-character string
`","` (length ≤ 3, so returned unchanged), erasing all commas from
`addCommas s` yields the empty string, not `s`. -/
theorem C9_comma_counterexample :
    addCommas [','] = [','] ∧ eraseCommas (addCommas [',']) ≠ [','] := by
  have h1 : addCommas [','] = [','] := addCommas_short [','] (by simp)
  refine ⟨h1, ?_⟩
  rw [h1]
  decide

/-- Claim C9 (amended): for every comma-free string `s`, erasing all
commas from `addCommas s` yields `s`; the comma groups of the result
partition the characters of `s` from the right into groups of exactly
three (every group after the leftmost has length 3) with a leftmost
group of one to three characters; the result never starts with a
comma; and strings of length at most three are returned unchanged. -/
theorem C9_add_commas_grouping (s : Word) (hs : ',' ∉ s) :
    eraseCommas (addCommas s) = s
    ∧ (splitOnComma (addCommas s)).flatten = s
    ∧ (∀ g ∈ (splitOnComma (addCommas s)).tail, g.length = 3)
    ∧ (s ≠ [] → 1 ≤ ((splitOnComma (addCommas s)).headD []).length
        ∧ ((splitOnComma (addCommas s)).headD []).length ≤ 3)
    ∧ (addCommas s).head? ≠ some ','
    ∧ (s.length ≤ 3 → addCommas s = s) := by
  obtain ⟨h1, h2, h3, h4⟩ := addCommas_grouping_aux s.length s le_rfl hs
  exact ⟨h1, by rw [flatten_splitOnComma, h1], h2, h3, h4, fun h => addCommas_short s h⟩

/-- Witness for C9 at the concrete comma-free string `1234567`. -/
theorem C9_add_commas_grouping_witness :
    (',' ∉ "1234567".toList)
    ∧ eraseCommas (addCommas "1234567".toList) = "1234567".toList :=
  ⟨by decide, (C9_add_commas_grouping "1234567".toList (by decide)).1⟩

end WCS
